import Mathlib

/-!
# Verification of the greedy task-assignment engine

A shallow embedding of the scheduling engine (`models.py`, `scheduler.py`):
employees with capacity-tracked hours, tasks with an optional assigned-employee
reference, and the single-pass greedy scheduler `schedule_all`.

Modelling conventions:
* Python `float` values (hours, durations, scores) are modelled as exact
  rationals `ℚ`; all comparisons in the source are plain comparisons, with no
  tolerance, so the rational model reflects the source arithmetic.
* Python object references are modelled explicitly: the roster is a
  `List Employee` and a task's `assigned_employee` is an `Option Nat` holding
  the *index* of the referenced employee object in the roster.  Index = object
  identity; the data stored at the index = the object's current field values.
* Python runtime faults that the source can actually raise
  (`TypeError` from comparing `datetime` with `float('inf')`,
  `ZeroDivisionError` from dividing by `max_hours == 0`, `IndexError` from
  `scored_employees[0]` on an empty list) are modelled with an `Except` monad.
* Python `set` values (`training`, `required_training`) are modelled as
  `List String` used only through order-insensitive operations, except for
  `', '.join(missing)` whose set-iteration order is unspecified in Python:
  that join is parameterised by the iteration order (any permutation of the
  missing set), and the engine-internal canonical enumeration uses the
  declaration order of the required list.
* `datetime` deadlines are modelled as integer timestamps.
* The `Schedule.period_start` / `period_end` / `created_at` timestamps are
  omitted: they are never read by any engine operation.
-/

-- Batteries marks the `Rat` field operations `irreducible`, which blocks
-- kernel evaluation of concrete schedules; restore the default reducibility
-- so `decide` can evaluate the embedded code on witness inputs.
attribute [local semireducible] Rat.add Rat.sub Rat.mul Rat.inv

deriving instance DecidableEq for Except

namespace Sched

/-- Python runtime faults that the embedded code can raise. -/
inductive PyErr where
  | typeError
  | zeroDivisionError
  | indexError
deriving DecidableEq, Repr

/-- `Employee` dataclass from `models.py`. -/
structure Employee where
  id : Int
  name : String
  training : List String
  rank : Int
  position : String
  max_hours : ℚ
  current_hours : ℚ
deriving DecidableEq, Repr

/-- `Task` dataclass from `models.py`.  `assigned_employee` holds the roster
index of the referenced employee object (object identity), or `none`. -/
structure Task where
  id : Int
  name : String
  required_training : List String
  duration : ℚ
  priority : Int
  min_rank : Int
  deadline : Option Int
  assigned_employee : Option Nat
deriving DecidableEq, Repr

/-- Default used only for out-of-range list reads; the scheduler never
dereferences an invalid index on the paths covered by the theorems. -/
def dummyEmployee : Employee :=
  { id := 0, name := "", training := [], rank := 0, position := "",
    max_hours := 0, current_hours := 0 }

/-- Default used only for out-of-range list reads. -/
def dummyTask : Task :=
  { id := 0, name := "", required_training := [], duration := 0,
    priority := 0, min_rank := 0, deadline := none, assigned_employee := none }

/-- In-place update of the object stored at index `n` (Python mutation of the
referenced object). Out-of-range indices leave the list unchanged. -/
def listModify (f : α → α) : Nat → List α → List α
  | _, [] => []
  | 0, x :: xs => f x :: xs
  | n + 1, x :: xs => x :: listModify f n xs

/-- `Employee.has_training`: `required_training.issubset(self.training)`. -/
def Employee.has_training (e : Employee) (required : List String) : Bool :=
  required.all (fun sk => decide (sk ∈ e.training))

/-- `Employee.can_work_hours`: `(self.current_hours + hours) <= self.max_hours`. -/
def Employee.can_work_hours (e : Employee) (hours : ℚ) : Bool :=
  decide (e.current_hours + hours ≤ e.max_hours)

/-- `Employee.assign_hours`: `self.current_hours += hours`. -/
def Employee.assign_hours (e : Employee) (hours : ℚ) : Employee :=
  { e with current_hours := e.current_hours + hours }

/-- `Employee.reset_hours`: `self.current_hours = 0.0`. -/
def Employee.reset_hours (e : Employee) : Employee :=
  { e with current_hours := 0 }

/-- `Employee.available_hours`: `max(0, self.max_hours - self.current_hours)`. -/
def Employee.available_hours (e : Employee) : ℚ :=
  max 0 (e.max_hours - e.current_hours)

/-- `Task.is_assigned`: `self.assigned_employee is not None`. -/
def Task.is_assigned (t : Task) : Bool :=
  t.assigned_employee.isSome

/-- `Task.can_be_assigned_to`: training superset, capacity, and rank checks. -/
def Task.can_be_assigned_to (t : Task) (e : Employee) : Bool :=
  e.has_training t.required_training && e.can_work_hours t.duration &&
    decide (t.min_rank ≤ e.rank)

/-- `Task.unassign`: if assigned, subtract the task's duration from the hours
of the *referenced employee object* and clear the link.  Takes and returns the
roster because the referenced object lives there. -/
def Task.unassign (t : Task) (employees : List Employee) :
    Task × List Employee :=
  match t.assigned_employee with
  | some j =>
      ({ t with assigned_employee := none },
       listModify (fun e => { e with current_hours := e.current_hours - t.duration }) j employees)
  | none => (t, employees)

/-- The mathematical missing-skill set `self.required_training - employee.training`,
enumerated canonically in the declaration order of the required list. -/
def pyMissingList (t : Task) (e : Employee) : List String :=
  t.required_training.filter (fun sk => decide (sk ∉ e.training))

def msgMissing : String := "Missing required training: "

def sepComma : String := ", "

/-- Rendering of a rational as Python renders the floats arising here.
Integral values print as `<n>.0`; exact float formatting of non-integral
values is abstracted (no claim depends on it). -/
def ratStr (q : ℚ) : String :=
  if q.den = 1 then toString q.num ++ ".0"
  else toString q.num ++ "/" ++ toString q.den

def msgHoursA : String := "Insufficient hours available ("

def msgHoursB : String := "h available, "

def msgHoursC : String := "h needed)"

def msgRankA : String := "Rank too low (rank "

def msgRankB : String := ", minimum "

def msgRankC : String := " required)"

/-- `Task.get_unassignment_reasons`, parameterised by the iteration order of
the Python set `missing = self.required_training - employee.training` used by
`', '.join(missing)`; any permutation of the missing set is admissible. -/
def Task.get_unassignment_reasons_ord (t : Task) (e : Employee)
    (missingOrder : List String) : List String :=
  (if e.has_training t.required_training then []
   else [msgMissing ++ String.intercalate sepComma missingOrder]) ++
  (if e.can_work_hours t.duration then []
   else [msgHoursA ++ ratStr e.available_hours ++ msgHoursB ++ ratStr t.duration ++ msgHoursC]) ++
  (if e.rank < t.min_rank then
     [msgRankA ++ toString e.rank ++ msgRankB ++ toString t.min_rank ++ msgRankC]
   else [])

/-- `Task.get_unassignment_reasons` at the canonical enumeration of the
missing set. -/
def Task.get_unassignment_reasons (t : Task) (e : Employee) : List String :=
  t.get_unassignment_reasons_ord e (pyMissingList t e)

/-- `Schedule` aggregate from `models.py` (the descriptive period timestamps,
unread by the engine, are omitted). -/
structure Schedule where
  employees : List Employee
  tasks : List Task
deriving DecidableEq, Repr

/-- `Schedule.get_assigned_tasks`. -/
def Schedule.get_assigned_tasks (s : Schedule) : List Task :=
  s.tasks.filter (fun t => t.is_assigned)

/-- `Schedule.get_unassigned_tasks`. -/
def Schedule.get_unassigned_tasks (s : Schedule) : List Task :=
  s.tasks.filter (fun t => !t.is_assigned)

/-- `Schedule.get_employee_tasks`: `task.assigned_employee == employee`, i.e.
Python dataclass *field equality* between the referenced object's current
value and the argument's value (`None == employee` is false). -/
def Schedule.get_employee_tasks (s : Schedule) (employee : Employee) : List Task :=
  s.tasks.filter (fun t =>
    match t.assigned_employee with
    | some j => decide (s.employees.get? j = some employee)
    | none => false)

/-- `Schedule.get_completion_rate`. -/
def Schedule.get_completion_rate (s : Schedule) : ℚ :=
  if s.tasks.isEmpty then 100
  else ((s.get_assigned_tasks.length : ℚ) / (s.tasks.length : ℚ)) * 100

/-- `Schedule.is_valid`: hours within capacity and every assigned task still
eligible for its current assignee. A dangling reference (index out of range)
cannot arise in engine-produced states and counts as valid. -/
def Schedule.is_valid (s : Schedule) : Bool :=
  s.employees.all (fun e => decide (e.current_hours ≤ e.max_hours)) &&
  s.get_assigned_tasks.all (fun t =>
    match t.assigned_employee with
    | some j =>
        match s.employees.get? j with
        | some e => t.can_be_assigned_to e
        | none => true
    | none => true)

/-- One step of the `Schedule.reset` loop over tasks: `task.unassign()`,
threading the roster and accumulating the mutated tasks in order. -/
def resetStep (p : List Task × List Employee) (t : Task) :
    List Task × List Employee :=
  let q := t.unassign p.2
  (p.1 ++ [q.1], q.2)

/-- `Schedule.reset`: first loop sets every employee's hours to 0
(`reset_hours`), second loop calls `unassign` on every task — which *also*
subtracts the task's duration from its (just-zeroed) employee. -/
def Schedule.reset (s : Schedule) : Schedule :=
  let es0 := s.employees.map Employee.reset_hours
  let p := s.tasks.foldl resetStep ([], es0)
  { employees := p.2, tasks := p.1 }

/-- Python `round`: round-half-even on exact rationals. -/
def pyRoundHalfEven (x : ℚ) : Int :=
  let f := Int.floor x
  let r := x - (f : ℚ)
  if r < 1 / 2 then f
  else if 1 / 2 < r then f + 1
  else if f % 2 = 0 then f else f + 1

/-- Python `round(x, 2)` on exact rationals. -/
def pyRound2 (x : ℚ) : ℚ :=
  (pyRoundHalfEven (x * 100) : ℚ) / 100

/-- Record returned by `Schedule.get_statistics`. -/
structure Stats where
  total_employees : Nat
  total_tasks : Nat
  assigned_tasks : Nat
  unassigned_tasks : Nat
  completion_rate : ℚ
  total_hours_scheduled : ℚ
  average_hours_per_employee : ℚ
  is_valid : Bool
deriving DecidableEq, Repr

/-- Sum of `current_hours` over the roster. -/
def sumHours (es : List Employee) : ℚ :=
  es.foldl (fun a e => a + e.current_hours) 0

/-- `Schedule.get_statistics`. -/
def Schedule.get_statistics (s : Schedule) : Stats :=
  { total_employees := s.employees.length,
    total_tasks := s.tasks.length,
    assigned_tasks := s.get_assigned_tasks.length,
    unassigned_tasks := s.get_unassigned_tasks.length,
    completion_rate := pyRound2 s.get_completion_rate,
    total_hours_scheduled := sumHours s.employees,
    average_hours_per_employee :=
      if s.employees.isEmpty then 0
      else pyRound2 (sumHours s.employees / (s.employees.length : ℚ)),
    is_valid := s.is_valid }

/-! ## `AutoScheduler` (`scheduler.py`) -/

/-- Strict comparison of the Python sort keys
`(-t.priority, t.deadline if t.deadline else float('inf'))`.
Tuple comparison first compares `-priority`; only on equality does it compare
the second slot, where comparing a `datetime` with the float `inf` raises
`TypeError` (and `inf < inf` is false). -/
def taskKeyLt (a b : Task) : Except PyErr Bool :=
  if a.priority = b.priority then
    match a.deadline, b.deadline with
    | some x, some y => .ok (decide (x < y))
    | none, none => .ok false
    | some _, none => .error .typeError
    | none, some _ => .error .typeError
  else .ok (decide (b.priority < a.priority))

/-- Insert task index `x` into the already-sorted index list, placing it after
every element it does not strictly precede (the stable order Python `sorted`
produces), propagating a comparison fault. -/
def insertIdx (ts : List Task) (x : Nat) : List Nat → Except PyErr (List Nat)
  | [] => .ok [x]
  | y :: ys => do
      let b ← taskKeyLt ((ts.get? x).getD dummyTask) ((ts.get? y).getD dummyTask)
      if b then .ok (x :: y :: ys)
      else do
        let zs ← insertIdx ts x ys
        .ok (y :: zs)

/-- `AutoScheduler._sort_tasks_by_priority` as a stable sort of the task
*indices* (Python sorts a list of references to the task objects). -/
def sortTasksIdx (ts : List Task) : Except PyErr (List Nat) :=
  (List.range ts.length).foldlM (fun acc i => insertIdx ts i acc) []

/-- `AutoScheduler._get_eligible_employees`, as roster indices in encounter
order. -/
def eligibleIdx (s : Schedule) (t : Task) : List Nat :=
  (List.range s.employees.length).filter (fun i =>
    match s.employees.get? i with
    | some e => t.can_be_assigned_to e
    | none => false)

/-- `AutoScheduler._score_employee_for_task`.  Both ratio terms divide by
`employee.max_hours`; Python raises `ZeroDivisionError` when it is zero. -/
def scoreFor (t : Task) (e : Employee) : Except PyErr ℚ :=
  if e.max_hours = 0 then .error .zeroDivisionError
  else
    let rank_diff := e.rank - t.min_rank
    let base : ℚ :=
      if rank_diff = 0 then 50
      else if rank_diff ≤ 2 then 40
      else if rank_diff ≤ 4 then 20
      else 10
    .ok (base + (e.available_hours / e.max_hours) * 30 +
      (1 - e.current_hours / e.max_hours) * 20)

/-- Stable descending insertion (Python `list.sort(key=..., reverse=True)`):
the new element goes before the first strictly smaller one, so equal keys keep
their encounter order. -/
def insertDescBy (f : α → ℚ) (x : α) : List α → List α
  | [] => [x]
  | y :: ys => if f y < f x then x :: y :: ys else y :: insertDescBy f x ys

/-- Stable descending sort by a rational key. -/
def sortDescBy (f : α → ℚ) (l : List α) : List α :=
  l.foldl (fun acc x => insertDescBy f x acc) []

/-- `AutoScheduler._select_best_employee`: score every eligible employee,
stable-sort descending by score, take element 0 (`IndexError` when empty).
Returns the scored candidate list (in eligible order) and the chosen index. -/
def selectBestEmployee (t : Task) (s : Schedule) (elig : List Nat) :
    Except PyErr (List (Nat × ℚ) × Nat) := do
  let scored ← elig.mapM (fun i => do
    let sc ← scoreFor t ((s.employees.get? i).getD dummyEmployee)
    pure (i, sc))
  match (sortDescBy (fun p => p.2) scored).head? with
  | some p => pure (scored, p.1)
  | none => .error .indexError

/-- `Task.assign_to` acting on the schedule state: re-check
`can_be_assigned_to`, then link the task to the employee reference and add the
duration to that employee object's hours; on failure change nothing. -/
def assignTo (s : Schedule) (ti ei : Nat) : Bool × Schedule :=
  let t := (s.tasks.get? ti).getD dummyTask
  let e := (s.employees.get? ei).getD dummyEmployee
  if t.can_be_assigned_to e then
    (true,
     { s with
       tasks := listModify (fun t2 => { t2 with assigned_employee := some ei }) ti s.tasks,
       employees := listModify (fun e2 => e2.assign_hours t.duration) ei s.employees })
  else (false, s)

def msgNoEmployees : String := "No employees available"

def msgUnknown : String := "Unknown reason (this shouldn\x27t happen)"

/-- Append the elements of `new` not already present (Python accumulates the
reasons in a `set`; the model deduplicates in first-encounter order — no claim
depends on the order of this deduplicated list). -/
def addNewReasons (acc new : List String) : List String :=
  new.foldl (fun a r => if r ∈ a then a else a ++ [r]) acc

/-- `AutoScheduler._get_all_unassignment_reasons`. -/
def allUnassignmentReasons (s : Schedule) (t : Task) : List String :=
  if s.employees.isEmpty then [msgNoEmployees]
  else
    let rs := s.employees.foldl (fun a e => addNewReasons a (t.get_unassignment_reasons e)) []
    if rs.isEmpty then [msgUnknown] else rs

/-- Mutable state threaded through the `schedule_all` loop: the schedule, the
`unassigned_reasons` map (association list keyed by task id, insertion order),
and a ghost trace of the scored candidate lists computed by
`_select_best_employee` (task id paired with the scored list). -/
structure PassAcc where
  sch : Schedule
  reasons : List (Int × List String)
  trace : List (Int × List (Nat × ℚ))
deriving DecidableEq, Repr

/-- One iteration of the `schedule_all` loop (`_assign_task` plus the
reason-recording branch). -/
def stepTask (acc : PassAcc) (ti : Nat) : Except PyErr PassAcc :=
  let t := (acc.sch.tasks.get? ti).getD dummyTask
  let elig := eligibleIdx acc.sch t
  if elig.isEmpty then
    .ok { acc with reasons := acc.reasons ++ [(t.id, allUnassignmentReasons acc.sch t)] }
  else do
    let sel ← selectBestEmployee t acc.sch elig
    let r := assignTo acc.sch ti sel.2
    if r.1 then
      .ok { acc with sch := r.2, trace := acc.trace ++ [(t.id, sel.1)] }
    else
      .ok { acc with sch := r.2, reasons := acc.reasons ++ [(t.id, allUnassignmentReasons r.2 t)], trace := acc.trace ++ [(t.id, sel.1)] }

/-- Result of one `schedule_all` call: final schedule state, the
`unassigned_reasons` map, the returned boolean, and the ghost score trace. -/
structure SchedResult where
  schedule : Schedule
  unassigned_reasons : List (Int × List String)
  allAssigned : Bool
  trace : List (Int × List (Nat × ℚ))
deriving DecidableEq, Repr

/-- The body of `schedule_all` after the initial `self.schedule.reset()` and
`self.unassigned_reasons.clear()`. -/
def runPassCore (s0 : Schedule) : Except PyErr SchedResult := do
  let order ← sortTasksIdx s0.tasks
  let acc ← order.foldlM stepTask { sch := s0, reasons := [], trace := [] }
  pure { schedule := acc.sch,
         unassigned_reasons := acc.reasons,
         allAssigned := decide (acc.sch.get_unassigned_tasks.length = 0),
         trace := acc.trace }

/-- `AutoScheduler.schedule_all`. -/
def schedule_all (s : Schedule) : Except PyErr SchedResult :=
  runPassCore s.reset

/-- Record in the list returned by `get_employee_workload_report`. -/
structure WorkloadEntry where
  employee_id : Int
  employee_name : String
  position : String
  rank : Int
  assigned_hours : ℚ
  max_hours : ℚ
  available_hours : ℚ
  utilization : ℚ
  task_count : Nat
  task_items : List (Int × String × ℚ)
deriving DecidableEq, Repr

/-- The per-employee record built by `get_employee_workload_report`. -/
def workloadEntryOf (s : Schedule) (e : Employee) : WorkloadEntry :=
  let tasks := s.get_employee_tasks e
  { employee_id := e.id,
    employee_name := e.name,
    position := e.position,
    rank := e.rank,
    assigned_hours := e.current_hours,
    max_hours := e.max_hours,
    available_hours := e.available_hours,
    utilization :=
      if 0 < e.max_hours then pyRound2 ((e.current_hours / e.max_hours) * 100) else 0,
    task_count := tasks.length,
    task_items := tasks.map (fun t => (t.id, t.name, t.duration)) }

/-- `AutoScheduler.get_employee_workload_report`: one record per employee,
sorted by utilization descending (stable). -/
def get_employee_workload_report (s : Schedule) : List WorkloadEntry :=
  sortDescBy (fun w => w.utilization) (s.employees.map (workloadEntryOf s))

/-! ## Spec-side definitions (written from the wording of the spec, for
refinement comparisons) and erasure helpers used by the invariance lemmas. -/

/-- Erase the mutable assignment link of a task. -/
def eraseT (t : Task) : Task :=
  { t with assigned_employee := none }

/-- The immutable content of a schedule: hours zeroed, links cleared.  Two
schedules with the same `cleanse` hold the same roster and task data. -/
def cleanse (s : Schedule) : Schedule :=
  { employees := s.employees.map Employee.reset_hours,
    tasks := s.tasks.map eraseT }

/-- Spec wording of the rank-fit term: `d == 0 → 50`; `0 < d <= 2 → 40`;
`2 < d <= 4 → 20`; `d > 4 → 10`. -/
def specRankTerm (d : Int) : ℚ :=
  if d = 0 then 50
  else if 0 < d ∧ d ≤ 2 then 40
  else if 2 < d ∧ d ≤ 4 then 20
  else 10

/-- Spec wording of the desirability score: rank-fit term plus
`(available_hours / max_hours) * 30` with `available_hours =
max(0, max_hours - current_hours)`, plus `(1 - current_hours / max_hours) * 20`. -/
def specScore (t : Task) (e : Employee) : ℚ :=
  specRankTerm (e.rank - t.min_rank) +
    (max 0 (e.max_hours - e.current_hours) / e.max_hours) * 30 +
    (1 - e.current_hours / e.max_hours) * 20

/-- One step of the first-maximum fold: replace the current best only on a
*strictly* larger key, so the earliest maximal element is kept. -/
def stepFM (f : α → ℚ) (b : Option α) (x : α) : Option α :=
  match b with
  | none => some x
  | some y => if f y < f x then some x else some y

/-- First maximal element of a list under a rational key: the fold keeps the
earliest element whose key no later element strictly exceeds. -/
def firstMaxFold (f : α → ℚ) (l : List α) : Option α :=
  l.foldl (stepFM f) none

/-! ## Concrete instances used by the claim-level theorems -/

def c1Emp : Employee :=
  { id := 1, name := "Alice", training := ["Python"], rank := 5,
    position := "Engineer", max_hours := 80, current_hours := 0 }

def c1Task : Task :=
  { id := 1, name := "Fix", required_training := [], duration := 20,
    priority := 5, min_rank := 1, deadline := none, assigned_employee := none }

/-- A fresh one-employee, one-task schedule (nothing assigned yet). -/
def c1Fresh : Schedule :=
  { employees := [c1Emp], tasks := [c1Task] }

/-- The same schedule after the engine commits the task to the employee. -/
def c1Assigned : Schedule :=
  { employees := [{ id := 1, name := "Alice", training := ["Python"], rank := 5,
                    position := "Engineer", max_hours := 80, current_hours := 20 }],
    tasks := [{ id := 1, name := "Fix", required_training := [], duration := 20,
                priority := 5, min_rank := 1, deadline := none,
                assigned_employee := some 0 }] }

/-- Equal priority, with a deadline. -/
def c3taskA : Task :=
  { id := 1, name := "A", required_training := [], duration := 1, priority := 5,
    min_rank := 1, deadline := some 100, assigned_employee := none }

/-- Equal priority, no deadline. -/
def c3taskB : Task :=
  { id := 2, name := "B", required_training := [], duration := 1, priority := 5,
    min_rank := 1, deadline := none, assigned_employee := none }

def c3sch : Schedule :=
  { employees := [{ id := 1, name := "Eve", training := [], rank := 5,
                    position := "Op", max_hours := 40, current_hours := 0 }],
    tasks := [c3taskA, c3taskB] }

/-- Lower priority, late deadline. -/
def c3taskC : Task :=
  { id := 3, name := "C", required_training := [], duration := 1, priority := 5,
    min_rank := 1, deadline := some 200, assigned_employee := none }

/-- High priority, latest deadline. -/
def c3taskD : Task :=
  { id := 4, name := "D", required_training := [], duration := 1, priority := 9,
    min_rank := 1, deadline := some 300, assigned_employee := none }

/-- High priority, earliest deadline. -/
def c3taskE : Task :=
  { id := 5, name := "E", required_training := [], duration := 1, priority := 9,
    min_rank := 1, deadline := some 100, assigned_employee := none }

/-- Task requiring two skills the employee lacks. -/
def c7task : Task :=
  { id := 1, name := "Deploy", required_training := ["Rust", "Go"], duration := 10,
    priority := 5, min_rank := 1, deadline := none, assigned_employee := none }

def c7emp : Employee :=
  { id := 1, name := "Bob", training := [], rank := 3, position := "Dev",
    max_hours := 40, current_hours := 0 }

def c8emp : Employee :=
  { id := 7, name := "Kim", training := ["SQL"], rank := 4, position := "DBA",
    max_hours := 60, current_hours := 10 }

def c8task : Task :=
  { id := 3, name := "Migrate", required_training := ["SQL"], duration := 10,
    priority := 6, min_rank := 1, deadline := none, assigned_employee := some 0 }

/-- Two *distinct* employee objects (indices 0 and 1) with equal field values;
the task is linked to object 0. -/
def c8sch : Schedule :=
  { employees := [c8emp, c8emp], tasks := [c8task] }

/-- A roster with pairwise distinct field values, for the amended C8 claim. -/
def c8wsch : Schedule :=
  { employees := [c8emp, { c8emp with id := 8, name := "Lee" }], tasks := [c8task] }

/-- Roster containing an employee with `max_hours == 0` alongside a normal
employee, plus one positive-duration task: input for the C9 witness. -/
def c9sch : Schedule :=
  { employees := [{ id := 1, name := "Zed", training := ["Py"], rank := 5,
                    position := "Intern", max_hours := 0, current_hours := 0 },
                  { id := 2, name := "Ann", training := ["Py"], rank := 5,
                    position := "Eng", max_hours := 40, current_hours := 0 }],
    tasks := [{ id := 1, name := "Job", required_training := ["Py"], duration := 8,
                priority := 7, min_rank := 1, deadline := none,
                assigned_employee := none }] }

def c5emp : Employee :=
  { id := 1, name := "X", training := ["Py"], rank := 5,
    position := "Eng", max_hours := 40, current_hours := 0 }

def c5empB : Employee :=
  { id := 2, name := "Y", training := ["Py"], rank := 5,
    position := "Eng", max_hours := 40, current_hours := 0 }

/-- Two eligible employees with equal scores (same rank, same availability):
the tie must go to the first of the eligible list. -/
def c5sch : Schedule :=
  { employees := [c5emp, c5empB], tasks := [] }

def c5task : Task :=
  { id := 4, name := "Tie", required_training := ["Py"], duration := 10,
    priority := 5, min_rank := 5, deadline := none, assigned_employee := none }

/-- Result of `schedule_all` on `c9sch`: the zero-capacity employee is never
eligible (hence never scored, hence never divided by), and the task commits
to the second employee. -/
def c9res : SchedResult :=
  { schedule := { employees := [{ id := 1, name := "Zed", training := ["Py"], rank := 5,
                                  position := "Intern", max_hours := 0, current_hours := 0 },
                                { id := 2, name := "Ann", training := ["Py"], rank := 5,
                                  position := "Eng", max_hours := 40, current_hours := 8 }],
                  tasks := [{ id := 1, name := "Job", required_training := ["Py"], duration := 8,
                              priority := 7, min_rank := 1, deadline := none,
                              assigned_employee := some 1 }] },
    unassigned_reasons := [],
    allAssigned := true,
    trace := [(1, [(1, 70)])] }

/-- Result of `schedule_all` on `c1Fresh`: the single task commits to the
single employee with score `20 + 30 + 20 = 70`. -/
def c2res : SchedResult :=
  { schedule := { employees := [{ c1Emp with current_hours := 20 }],
                  tasks := [{ c1Task with assigned_employee := some 0 }] },
    unassigned_reasons := [],
    allAssigned := true,
    trace := [(1, [(0, 70)])] }

/-! ## Lemmas about `listModify` -/

theorem listModify_length (f : α → α) : ∀ (n : Nat) (l : List α),
    (listModify f n l).length = l.length := by
  intro n l
  induction l generalizing n with
  | nil => cases n <;> rfl
  | cons x xs ih =>
    cases n with
    | zero => simp [listModify]
    | succ m => simp [listModify, ih]

theorem listModify_get?_self (f : α → α) : ∀ (n : Nat) (l : List α),
    (listModify f n l).get? n = (l.get? n).map f := by
  intro n l
  induction l generalizing n with
  | nil => cases n <;> rfl
  | cons x xs ih =>
    cases n with
    | zero => rfl
    | succ m => simpa [listModify] using ih m

theorem listModify_get?_ne (f : α → α) : ∀ (n m : Nat), m ≠ n → ∀ (l : List α),
    (listModify f n l).get? m = l.get? m := by
  intro n m hne l
  induction l generalizing n m with
  | nil => cases n <;> rfl
  | cons x xs ih =>
    cases n with
    | zero =>
      cases m with
      | zero => exact absurd rfl hne
      | succ m2 => rfl
    | succ n2 =>
      cases m with
      | zero => rfl
      | succ m2 =>
        have : m2 ≠ n2 := fun h => hne (by rw [h])
        simpa [listModify] using ih n2 m2 this

theorem listModify_mem (f : α → α) : ∀ (n : Nat) (l : List α) (x : α),
    x ∈ listModify f n l → x ∈ l ∨ ∃ y, l.get? n = some y ∧ x = f y := by
  intro n l
  induction l generalizing n with
  | nil => intro x hx; cases n <;> simp [listModify] at hx
  | cons z zs ih =>
    intro x hx
    cases n with
    | zero =>
      simp only [listModify, List.mem_cons] at hx
      rcases hx with h | h
      · exact Or.inr ⟨z, rfl, h⟩
      · exact Or.inl (List.mem_cons_of_mem _ h)
    | succ m =>
      simp only [listModify, List.mem_cons] at hx
      rcases hx with h | h
      · exact Or.inl (h ▸ List.mem_cons_self _ _)
      · rcases ih m x h with h2 | ⟨y, hy, hxy⟩
        · exact Or.inl (List.mem_cons_of_mem _ h2)
        · exact Or.inr ⟨y, by simpa using hy, hxy⟩

theorem listModify_map (f : α → α) (g : α → β) (hg : ∀ x, g (f x) = g x) :
    ∀ (n : Nat) (l : List α), (listModify f n l).map g = l.map g := by
  intro n l
  induction l generalizing n with
  | nil => cases n <;> rfl
  | cons x xs ih =>
    cases n with
    | zero => simp [listModify, hg]
    | succ m => simp [listModify, ih]

/-! ## Lemmas about `reset` -/

theorem eraseT_of_unassigned (t : Task) (h : t.assigned_employee = none) :
    eraseT t = t := by
  cases t
  simp only [eraseT]
  simp_all

theorem unassign_fst (t : Task) (es : List Employee) :
    (t.unassign es).1 = eraseT t := by
  rcases h : t.assigned_employee with _ | j
  · simp [Task.unassign, h, eraseT_of_unassigned t h]
  · simp [Task.unassign, h, eraseT]

theorem unassign_snd_map (t : Task) (es : List Employee) :
    (t.unassign es).2.map Employee.reset_hours = es.map Employee.reset_hours := by
  rcases h : t.assigned_employee with _ | j
  · simp [Task.unassign, h]
  · simp only [Task.unassign, h]
    exact listModify_map
      (fun e => { e with current_hours := e.current_hours - t.duration })
      Employee.reset_hours (fun e => rfl) j es

theorem foldl_resetStep_fst : ∀ (ts : List Task) (acc : List Task) (es : List Employee),
    (ts.foldl resetStep (acc, es)).1 = acc ++ ts.map eraseT := by
  intro ts
  induction ts with
  | nil => intro acc es; simp
  | cons t ts ih =>
    intro acc es
    simp only [List.foldl_cons, List.map_cons]
    rw [show resetStep (acc, es) t = (acc ++ [(t.unassign es).1], (t.unassign es).2) from rfl]
    rw [ih, unassign_fst]
    simp

theorem foldl_resetStep_snd_map : ∀ (ts : List Task) (acc : List Task) (es : List Employee),
    (ts.foldl resetStep (acc, es)).2.map Employee.reset_hours = es.map Employee.reset_hours := by
  intro ts
  induction ts with
  | nil => intro acc es; simp
  | cons t ts ih =>
    intro acc es
    simp only [List.foldl_cons]
    rw [show resetStep (acc, es) t = (acc ++ [(t.unassign es).1], (t.unassign es).2) from rfl]
    rw [ih, unassign_snd_map]

theorem reset_tasks (s : Schedule) : s.reset.tasks = s.tasks.map eraseT := by
  unfold Schedule.reset
  simpa using foldl_resetStep_fst s.tasks [] (s.employees.map Employee.reset_hours)

theorem reset_employees_map (s : Schedule) :
    s.reset.employees.map Employee.reset_hours = s.employees.map Employee.reset_hours := by
  unfold Schedule.reset
  rw [foldl_resetStep_snd_map]
  rw [List.map_map]
  rfl

theorem eraseT_idem (t : Task) : eraseT (eraseT t) = eraseT t := rfl

theorem cleanse_reset (s : Schedule) : cleanse s.reset = cleanse s := by
  unfold cleanse
  rw [reset_tasks, reset_employees_map, List.map_map]
  rfl

theorem reset_unassigned (s : Schedule) :
    ∀ t ∈ s.reset.tasks, t.assigned_employee = none := by
  rw [reset_tasks]
  intro t ht
  rcases List.mem_map.mp ht with ⟨u, _, rfl⟩
  rfl

theorem foldl_resetStep_unassigned : ∀ (ts : List Task),
    (∀ t ∈ ts, t.assigned_employee = none) → ∀ (acc : List Task) (es : List Employee),
    ts.foldl resetStep (acc, es) = (acc ++ ts.map eraseT, es) := by
  intro ts
  induction ts with
  | nil => intro _ acc es; simp
  | cons t ts ih =>
    intro h acc es
    have ht : t.assigned_employee = none := h t (List.mem_cons_self _ _)
    have hts : ∀ u ∈ ts, u.assigned_employee = none :=
      fun u hu => h u (List.mem_cons_of_mem _ hu)
    simp only [List.foldl_cons, List.map_cons]
    rw [show resetStep (acc, es) t = (acc ++ [(t.unassign es).1], (t.unassign es).2) from rfl]
    rw [show t.unassign es = (t, es) by simp [Task.unassign, ht]]
    rw [ih hts]
    rw [eraseT_of_unassigned t ht]
    simp

theorem reset_of_unassigned (s : Schedule)
    (h : ∀ t ∈ s.tasks, t.assigned_employee = none) : s.reset = cleanse s := by
  unfold Schedule.reset cleanse
  dsimp only
  rw [foldl_resetStep_unassigned s.tasks h [] (s.employees.map Employee.reset_hours)]
  simp

/-! ## Claim C1 -/

/-- Claim C1 (code bug): the claim says that after `reset()` every employee
ends with `current_hours == 0`.  The code zeroes the hours *first* and then
`task.unassign()` subtracts each assigned duration again: starting from the
reachable state `c1Assigned` (produced by a real commit from `c1Fresh`),
`reset` clears the link and `get_statistics` shows `assigned_tasks == 0`, but
the employee ends at `current_hours == -20`, not `0`. -/
theorem c1_reset_leaves_negative_hours :
    assignTo c1Fresh 0 0 = (true, c1Assigned) ∧
    c1Assigned.reset.tasks.map Task.assigned_employee = [none] ∧
    c1Assigned.reset.get_statistics.assigned_tasks = 0 ∧
    c1Assigned.reset.employees.map Employee.current_hours = [-20] ∧
    c1Assigned.reset.get_statistics.total_hours_scheduled = -20 := by
  refine ⟨?_, ?_, ?_, ?_, ?_⟩ <;> decide

/-! ## Claim C3 -/

/-- Claim C3 (code bug): the claim says the ordering step completes normally
on any mix of tasks with and without deadlines.  The Python key compares a
`datetime` with `float(inf)` whenever two tasks share a priority and exactly
one has a deadline, raising `TypeError` — shown on `[c3taskA, c3taskB]` and
propagated out of `schedule_all` on `c3sch`.  On deadline-homogeneous
priority classes the sort does order by priority descending then deadline
ascending, as the last conjunct shows. -/
theorem c3_sort_raises_type_error :
    sortTasksIdx [c3taskA, c3taskB] = .error .typeError ∧
    schedule_all c3sch = .error .typeError ∧
    sortTasksIdx [c3taskC, c3taskD, c3taskE] = .ok [2, 1, 0] := by
  refine ⟨?_, ?_, ?_⟩ <;> decide

/-! ## Claim C6 -/

/-- Claim C6: for every task and eligible employee (with a positive
`max_hours`, which eligibility guarantees on validated rosters), the computed
score is exactly the spec formula: the 50/40/20/10 rank-fit term on
`d = rank - min_rank`, plus `(available_hours / max_hours) * 30`, plus
`(1 - current_hours / max_hours) * 20`, all on pre-assignment state. -/
theorem c6_score_formula (t : Task) (e : Employee)
    (helig : t.can_be_assigned_to e = true) (hmax : 0 < e.max_hours) :
    scoreFor t e = .ok (specScore t e) := by
  have hrank : t.min_rank ≤ e.rank := by
    unfold Task.can_be_assigned_to at helig
    simp only [Bool.and_eq_true, decide_eq_true_eq] at helig
    exact helig.2
  unfold scoreFor specScore specRankTerm Employee.available_hours
  rw [if_neg (ne_of_gt hmax)]
  dsimp only
  have hd : 0 ≤ e.rank - t.min_rank := by omega
  by_cases h0 : e.rank - t.min_rank = 0
  · rw [if_pos h0, if_pos h0]
  · by_cases h2 : e.rank - t.min_rank ≤ 2
    · rw [if_neg h0, if_pos h2, if_neg h0, if_pos ⟨by omega, h2⟩]
    · by_cases h4 : e.rank - t.min_rank ≤ 4
      · rw [if_neg h0, if_neg h2, if_pos h4, if_neg h0,
          if_neg (by rintro ⟨-, h⟩; exact h2 h), if_pos ⟨by omega, h4⟩]
      · rw [if_neg h0, if_neg h2, if_neg h4, if_neg h0,
          if_neg (by rintro ⟨-, h⟩; exact h2 h),
          if_neg (by rintro ⟨-, h⟩; exact h4 h)]

/-- Witness for C6 at a concrete eligible employee with positive capacity. -/
theorem c6_score_formula_witness :
    c5task.can_be_assigned_to c5emp = true ∧ 0 < c5emp.max_hours ∧
    scoreFor c5task c5emp = .ok (specScore c5task c5emp) := by
  refine ⟨by decide, by decide, c6_score_formula c5task c5emp (by decide) (by decide)⟩

/-! ## Claim C7 -/

/-- Claim C7 (corrected): the claim says the missing-skill reason joins the
missing skills in lexicographically *sorted* order.  The code joins the
Python *set* `required - training` in its unspecified iteration order without
sorting: under the admissible iteration order `["Rust", "Go"]` (a permutation
of the missing set whose sorted form is `["Go", "Rust"]`), the produced
string differs from the sorted-join the claim demands. -/
theorem c7_counterexample :
    pyMissingList c7task c7emp = ["Rust", "Go"] ∧
    List.Perm ["Rust", "Go"] (pyMissingList c7task c7emp) ∧
    Task.get_unassignment_reasons_ord c7task c7emp ["Rust", "Go"] =
      [msgMissing ++ "Rust, Go"] ∧
    Task.get_unassignment_reasons_ord c7task c7emp ["Rust", "Go"] ≠
      [msgMissing ++ String.intercalate sepComma ["Go", "Rust"]] := by
  refine ⟨by decide, by decide, by decide, by decide⟩

/-- Claim C7 (amended): for an employee missing some required skills, the
recorded reason is `"Missing required training: "` followed by the
comma-join of the missing skills in the set's unspecified iteration order (an
arbitrary permutation of the missing set), not necessarily sorted; when at
most one skill is missing the iteration order — and hence the sorted form the
original claim demands — is forced. -/
theorem c7_amended (t : Task) (e : Employee) (ord : List String)
    (hperm : List.Perm ord (pyMissingList t e))
    (hmiss : e.has_training t.required_training = false) :
    (∃ rest, Task.get_unassignment_reasons_ord t e ord =
      (msgMissing ++ String.intercalate sepComma ord) :: rest) ∧
    ((pyMissingList t e).length ≤ 1 → ord = pyMissingList t e) := by
  constructor
  · unfold Task.get_unassignment_reasons_ord
    rw [hmiss]
    simp only [Bool.false_eq_true, if_false, List.cons_append]
    exact ⟨_, rfl⟩
  · intro hlen
    rcases hl : pyMissingList t e with _ | ⟨a, l2⟩
    · rw [hl] at hperm
      exact hperm.eq_nil
    · rw [hl] at hperm hlen
      rcases l2 with _ | ⟨b, l3⟩
      · exact List.perm_singleton.mp hperm
      · simp at hlen

/-- Witness for C7 (amended) at the concrete two-skill input. -/
theorem c7_amended_witness :
    List.Perm ["Rust", "Go"] (pyMissingList c7task c7emp) ∧
    c7emp.has_training c7task.required_training = false ∧
    (∃ rest, Task.get_unassignment_reasons_ord c7task c7emp ["Rust", "Go"] =
      (msgMissing ++ String.intercalate sepComma ["Rust", "Go"]) :: rest) := by
  refine ⟨by decide, by decide,
    (c7_amended c7task c7emp ["Rust", "Go"] (by decide) (by decide)).1⟩

/-! ## Claim C8 -/

/-- Claim C8 (corrected): the claim says `get_employee_tasks(e)` keeps
exactly the tasks whose link refers to `e` *by identity*.  Python dataclass
`==` is field equality: in `c8sch` the two roster slots hold distinct objects
with equal field values, the task is linked to object 0, yet querying with
object 1 still returns it — unlike the identity-based filter. -/
theorem c8_counterexample :
    Schedule.get_employee_tasks c8sch ((c8sch.employees.get? 1).getD dummyEmployee) =
      [c8task] ∧
    c8task.assigned_employee = some 0 ∧
    Schedule.get_employee_tasks c8sch ((c8sch.employees.get? 1).getD dummyEmployee) ≠
      c8sch.tasks.filter (fun t => decide (t.assigned_employee = some 1)) := by
  refine ⟨by decide, by decide, by decide⟩

/-- Claim C8 (amended): `get_employee_tasks(e)` returns exactly the tasks
whose referenced employee object currently has field values *equal* to `e`
(dataclass equality); this coincides with the identity-based reading exactly
when no two roster slots hold equal field values. -/
theorem c8_amended :
    (∀ (s : Schedule) (e : Employee) (t : Task),
      t ∈ s.get_employee_tasks e ↔
        t ∈ s.tasks ∧ ∃ j, t.assigned_employee = some j ∧ s.employees.get? j = some e) ∧
    (∀ (s : Schedule) (i : Nat), i < s.employees.length →
      (∀ j k, j < s.employees.length → k < s.employees.length →
        s.employees.get? j = s.employees.get? k → j = k) →
      s.get_employee_tasks ((s.employees.get? i).getD dummyEmployee) =
        s.tasks.filter (fun t => decide (t.assigned_employee = some i))) := by
  constructor
  · intro s e t
    unfold Schedule.get_employee_tasks
    rw [List.mem_filter]
    constructor
    · rintro ⟨hmem, hpred⟩
      refine ⟨hmem, ?_⟩
      rcases h : t.assigned_employee with _ | j
      · rw [h] at hpred; simp at hpred
      · rw [h] at hpred
        simp only [decide_eq_true_eq] at hpred
        exact ⟨j, rfl, hpred⟩
    · rintro ⟨hmem, j, hj, hget⟩
      refine ⟨hmem, ?_⟩
      rw [hj]
      simpa using hget
  · intro s i hi hinj
    rcases hgi : s.employees.get? i with _ | ei
    · rw [List.get?_eq_none] at hgi; omega
    · apply List.filter_congr
      intro t _
      rcases h : t.assigned_employee with _ | j
      · simp
      · simp only [hgi, Option.getD_some]
        rw [decide_eq_decide]
        constructor
        · intro hj
          have hjlen : j < s.employees.length := by
            by_contra hge
            rw [List.get?_eq_none.mpr (by omega)] at hj
            exact Option.noConfusion hj
          have : s.employees.get? j = s.employees.get? i := by rw [hj, hgi]
          exact congrArg some (hinj j i hjlen hi this)
        · intro hj
          have : j = i := Option.some.inj hj
          rw [this, hgi]

/-- Witness for C8 (amended) on a roster with pairwise distinct values. -/
theorem c8_amended_witness :
    0 < c8wsch.employees.length ∧
    Schedule.get_employee_tasks c8wsch ((c8wsch.employees.get? 0).getD dummyEmployee) =
      c8wsch.tasks.filter (fun t => decide (t.assigned_employee = some 0)) := by
  refine ⟨by decide, c8_amended.2 c8wsch 0 (by decide) ?_⟩
  intro j k hj hk heq
  have h2 : c8wsch.employees.length = 2 := rfl
  rw [h2] at hj hk
  interval_cases j <;> interval_cases k <;>
    first
      | rfl
      | exact absurd heq (by decide)

/-! ## Claim C10 -/

/-- Claim C10: `Task.assign_to` is atomic — it returns `True` and performs
exactly the two mutations (set the link to this employee reference, add the
duration to that employee object's hours) iff `can_be_assigned_to` holds on
the state at the call; otherwise it returns `False` and changes nothing. -/
theorem c10_assign_atomic (s : Schedule) (ti ei : Nat) (t : Task) (e : Employee)
    (ht : s.tasks.get? ti = some t) (he : s.employees.get? ei = some e) :
    ((assignTo s ti ei).1 = t.can_be_assigned_to e) ∧
    (t.can_be_assigned_to e = true →
      (assignTo s ti ei).2.tasks.get? ti = some { t with assigned_employee := some ei } ∧
      (assignTo s ti ei).2.employees.get? ei = some (e.assign_hours t.duration) ∧
      (∀ j, j ≠ ti → (assignTo s ti ei).2.tasks.get? j = s.tasks.get? j) ∧
      (∀ j, j ≠ ei → (assignTo s ti ei).2.employees.get? j = s.employees.get? j)) ∧
    (t.can_be_assigned_to e = false → (assignTo s ti ei).2 = s) := by
  unfold assignTo
  rw [ht, he]
  simp only [Option.getD_some]
  by_cases hc : t.can_be_assigned_to e
  · rw [if_pos hc]
    refine ⟨by simp [hc], fun _ => ⟨?_, ?_, ?_, ?_⟩, fun hfalse => by rw [hc] at hfalse; cases hfalse⟩
    · rw [listModify_get?_self, ht]; rfl
    · rw [listModify_get?_self, he]; rfl
    · intro j hj; exact listModify_get?_ne _ ti j hj s.tasks
    · intro j hj; exact listModify_get?_ne _ ei j hj s.employees
  · rw [if_neg hc]
    have hcf : t.can_be_assigned_to e = false := by
      cases hcc : t.can_be_assigned_to e
      · rfl
      · exact absurd hcc hc
    refine ⟨by rw [hcf], fun htrue => ?_, fun _ => rfl⟩
    rw [hcf] at htrue
    exact Bool.noConfusion htrue

/-- Witness for C10 at the fresh one-employee, one-task schedule. -/
theorem c10_assign_atomic_witness :
    c1Fresh.tasks.get? 0 = some c1Task ∧
    c1Fresh.employees.get? 0 = some c1Emp ∧
    (assignTo c1Fresh 0 0).1 = c1Task.can_be_assigned_to c1Emp := by
  exact ⟨rfl, rfl, (c10_assign_atomic c1Fresh 0 0 c1Task c1Emp rfl rfl).1⟩

/-! ## Monad plumbing for `Except` folds -/

theorem exceptBind_ok {ε α β : Type} (x : Except ε α) (g : α → Except ε β) (b : β) :
    (x >>= g) = .ok b ↔ ∃ a, x = .ok a ∧ g a = .ok b := by
  cases x <;> simp [Bind.bind, Except.bind]

theorem exceptBind_err {ε α β : Type} (x : Except ε α) (g : α → Except ε β) (e : ε) :
    (x >>= g) = .error e ↔ x = .error e ∨ ∃ a, x = .ok a ∧ g a = .error e := by
  cases x <;> simp [Bind.bind, Except.bind]

theorem exceptBind_of_ok {ε α β : Type} {x : Except ε α} {a : α}
    (h : x = .ok a) (g : α → Except ε β) : (x >>= g) = g a := by
  rw [h]
  rfl

theorem foldlM_ok_inv {σ α : Type} {f : σ → α → Except PyErr σ} {A : α → Prop} {P : σ → Prop}
    (hf : ∀ s a s', A a → f s a = .ok s' → P s → P s') :
    ∀ (l : List α), (∀ a ∈ l, A a) → ∀ (s s' : σ),
      l.foldlM f s = .ok s' → P s → P s' := by
  intro l
  induction l with
  | nil =>
    intro _ s s' h hP
    simp only [List.foldlM_nil] at h
    cases h
    exact hP
  | cons a l ih =>
    intro hA s s' h hP
    rw [List.foldlM_cons, exceptBind_ok] at h
    obtain ⟨s1, h1, h2⟩ := h
    exact ih (fun x hx => hA x (List.mem_cons_of_mem _ hx)) s1 s' h2
      (hf s a s1 (hA a (List.mem_cons_self _ _)) h1 hP)

theorem foldlM_ok_total {σ α : Type} {f : σ → α → Except PyErr σ} {A : α → Prop} {P : σ → Prop}
    (hf : ∀ s a, A a → P s → ∃ s', f s a = .ok s' ∧ P s') :
    ∀ (l : List α), (∀ a ∈ l, A a) → ∀ (s : σ), P s →
      ∃ s', l.foldlM f s = .ok s' ∧ P s' := by
  intro l
  induction l with
  | nil =>
    intro _ s hP
    exact ⟨s, by simp [List.foldlM_nil]; rfl, hP⟩
  | cons a l ih =>
    intro hA s hP
    obtain ⟨s1, h1, hP1⟩ := hf s a (hA a (List.mem_cons_self _ _)) hP
    obtain ⟨s2, h2, hP2⟩ := ih (fun x hx => hA x (List.mem_cons_of_mem _ hx)) s1 hP1
    exact ⟨s2, by rw [List.foldlM_cons, exceptBind_of_ok h1]; exact h2, hP2⟩

theorem foldlM_err {σ α : Type} {f : σ → α → Except PyErr σ} {E : PyErr → Prop}
    (hf : ∀ s a e, f s a = .error e → E e) :
    ∀ (l : List α) (s : σ) (e : PyErr), l.foldlM f s = .error e → E e := by
  intro l
  induction l with
  | nil =>
    intro s e h
    simp only [List.foldlM_nil] at h
    exact absurd h (by simp [pure, Except.pure])
  | cons a l ih =>
    intro s e h
    rw [List.foldlM_cons, exceptBind_err] at h
    rcases h with h | ⟨s1, _, h2⟩
    · exact hf s a e h
    · exact ih s1 e h2

/-! ## The pass never changes the immutable data (`cleanse` invariance) -/

theorem cleanse_idem (s : Schedule) : cleanse (cleanse s) = cleanse s := by
  unfold cleanse
  dsimp only
  rw [List.map_map, List.map_map]
  congr 1

theorem cleanse_assignTo (s : Schedule) (ti ei : Nat) :
    cleanse (assignTo s ti ei).2 = cleanse s := by
  unfold assignTo
  dsimp only
  by_cases hc : ((s.tasks.get? ti).getD dummyTask).can_be_assigned_to
      ((s.employees.get? ei).getD dummyEmployee)
  · rw [if_pos hc]
    unfold cleanse
    dsimp only
    congr 1
    · exact listModify_map
        (fun e2 => e2.assign_hours ((s.tasks.get? ti).getD dummyTask).duration)
        Employee.reset_hours (fun x => rfl) ei s.employees
    · exact listModify_map
        (fun t2 => { t2 with assigned_employee := some ei })
        eraseT (fun x => rfl) ti s.tasks
  · rw [if_neg hc]

theorem stepTask_cleanse (acc acc' : PassAcc) (ti : Nat)
    (h : stepTask acc ti = .ok acc') : cleanse acc'.sch = cleanse acc.sch := by
  unfold stepTask at h
  by_cases he : (eligibleIdx acc.sch ((acc.sch.tasks.get? ti).getD dummyTask)).isEmpty
  · rw [if_pos he] at h
    cases h
    rfl
  · rw [if_neg he] at h
    rw [exceptBind_ok] at h
    obtain ⟨sel, _, h2⟩ := h
    dsimp only at h2
    by_cases hr : (assignTo acc.sch ti sel.2).1
    · rw [if_pos hr] at h2
      cases h2
      exact cleanse_assignTo acc.sch ti sel.2
    · rw [if_neg hr] at h2
      cases h2
      exact cleanse_assignTo acc.sch ti sel.2

/-! ## Claim C2 -/

/-- Claim C2: `schedule_all` is deterministic across repeated invocations
with `reset()` in between.  For a fresh input (no pre-existing links), a
second `schedule_all` on the reset post-state returns *exactly* the first
result: the same assignment links, the same recorded reasons, the same
boolean, and the same per-candidate score lists (the ghost trace). -/
theorem c2_determinism (s : Schedule) (r : SchedResult)
    (hun : ∀ t ∈ s.tasks, t.assigned_employee = none)
    (h1 : schedule_all s = .ok r) :
    schedule_all r.schedule.reset = .ok r := by
  have hs_reset : s.reset = cleanse s := reset_of_unassigned s hun
  have hclean : cleanse r.schedule = cleanse s := by
    unfold schedule_all runPassCore at h1
    rw [exceptBind_ok] at h1
    obtain ⟨order, horder, h2⟩ := h1
    rw [exceptBind_ok] at h2
    obtain ⟨accF, hfold, hpure⟩ := h2
    have hrs : r.schedule = accF.sch := by
      simp only [pure, Except.pure, Except.ok.injEq] at hpure
      rw [← hpure]
    rw [hrs]
    have hinit : cleanse ({ sch := s.reset, reasons := [], trace := [] } : PassAcc).sch = cleanse s := by
      dsimp only
      rw [hs_reset]
      exact cleanse_idem s
    exact foldlM_ok_inv (A := fun _ => True)
      (P := fun acc => cleanse acc.sch = cleanse s)
      (fun a1 a a2 _ hok hP => (stepTask_cleanse a1 a2 a hok).trans hP)
      order (fun _ _ => trivial) _ _ hfold hinit
  show runPassCore r.schedule.reset.reset = .ok r
  rw [reset_of_unassigned _ (reset_unassigned r.schedule), cleanse_reset, hclean, ← hs_reset]
  exact h1

/-- Witness for C2 on the concrete fresh schedule. -/
theorem c2_determinism_witness :
    (∀ t ∈ c1Fresh.tasks, t.assigned_employee = none) ∧
    schedule_all c1Fresh = .ok c2res ∧
    schedule_all c2res.schedule.reset = .ok c2res := by
  refine ⟨by decide, by decide, c2_determinism c1Fresh c2res (by decide) (by decide)⟩

/-! ## Claim C4: capacity invariant -/

theorem foldl_resetStep_cap : ∀ (ts : List Task), (∀ t ∈ ts, 0 ≤ t.duration) →
    ∀ (acc : List Task) (es : List Employee),
      (∀ e ∈ es, e.current_hours ≤ e.max_hours) →
      ∀ e ∈ (ts.foldl resetStep (acc, es)).2, e.current_hours ≤ e.max_hours := by
  intro ts
  induction ts with
  | nil => intro _ acc es hes; simpa using hes
  | cons t ts ih =>
    intro hdur acc es hes
    rw [List.foldl_cons]
    rw [show resetStep (acc, es) t = (acc ++ [(t.unassign es).1], (t.unassign es).2) from rfl]
    apply ih (fun u hu => hdur u (List.mem_cons_of_mem _ hu))
    intro e he
    unfold Task.unassign at he
    rcases ha : t.assigned_employee with _ | j
    · rw [ha] at he
      exact hes e he
    · rw [ha] at he
      dsimp only at he
      rcases listModify_mem _ j es e he with hmem | ⟨y, hy, rfl⟩
      · exact hes e hmem
      · have hyd : 0 ≤ t.duration := hdur t (List.mem_cons_self _ _)
        have := hes y (List.get?_mem hy)
        dsimp only
        linarith

theorem reset_cap (s : Schedule)
    (hdur : ∀ t ∈ s.tasks, 0 ≤ t.duration)
    (hmax : ∀ e ∈ s.employees, 0 ≤ e.max_hours) :
    ∀ e ∈ s.reset.employees, e.current_hours ≤ e.max_hours := by
  unfold Schedule.reset
  dsimp only
  apply foldl_resetStep_cap s.tasks hdur
  intro e he
  rcases List.mem_map.mp he with ⟨y, hy, rfl⟩
  unfold Employee.reset_hours
  exact hmax y hy

theorem assignTo_cap (s : Schedule) (ti ei : Nat)
    (h : ∀ e ∈ s.employees, e.current_hours ≤ e.max_hours) :
    ∀ e ∈ (assignTo s ti ei).2.employees, e.current_hours ≤ e.max_hours := by
  unfold assignTo
  dsimp only
  by_cases hc : ((s.tasks.get? ti).getD dummyTask).can_be_assigned_to
      ((s.employees.get? ei).getD dummyEmployee)
  · rw [if_pos hc]
    intro x hx
    rcases listModify_mem _ ei s.employees x hx with hmem | ⟨y, hy, rfl⟩
    · exact h x hmem
    · have hey : (s.employees.get? ei).getD dummyEmployee = y := by rw [hy]; rfl
      rw [hey] at hc
      unfold Task.can_be_assigned_to Employee.can_work_hours at hc
      simp only [Bool.and_eq_true, decide_eq_true_eq] at hc
      unfold Employee.assign_hours
      exact hc.1.2
  · rw [if_neg hc]
    exact h

theorem stepTask_cap (acc acc' : PassAcc) (ti : Nat)
    (h : stepTask acc ti = .ok acc')
    (hP : ∀ e ∈ acc.sch.employees, e.current_hours ≤ e.max_hours) :
    ∀ e ∈ acc'.sch.employees, e.current_hours ≤ e.max_hours := by
  unfold stepTask at h
  by_cases he : (eligibleIdx acc.sch ((acc.sch.tasks.get? ti).getD dummyTask)).isEmpty
  · rw [if_pos he] at h
    cases h
    exact hP
  · rw [if_neg he] at h
    rw [exceptBind_ok] at h
    obtain ⟨sel, _, h2⟩ := h
    dsimp only at h2
    by_cases hr : (assignTo acc.sch ti sel.2).1
    · rw [if_pos hr] at h2
      cases h2
      exact assignTo_cap acc.sch ti sel.2 hP
    · rw [if_neg hr] at h2
      cases h2
      exact assignTo_cap acc.sch ti sel.2 hP

/-- Claim C4: with well-formed entities (non-negative durations and
capacities), every employee ends a successful `schedule_all` pass within
capacity: each commit is guarded by `can_work_hours` against the state at
commit time, and the initial reset leaves no employee above capacity. -/
theorem c4_capacity (s : Schedule) (r : SchedResult)
    (hdur : ∀ t ∈ s.tasks, 0 ≤ t.duration)
    (hmax : ∀ e ∈ s.employees, 0 ≤ e.max_hours)
    (h : schedule_all s = .ok r) :
    ∀ e ∈ r.schedule.employees, e.current_hours ≤ e.max_hours := by
  unfold schedule_all runPassCore at h
  rw [exceptBind_ok] at h
  obtain ⟨order, _, h2⟩ := h
  rw [exceptBind_ok] at h2
  obtain ⟨accF, hfold, hpure⟩ := h2
  have hrs : r.schedule = accF.sch := by
    simp only [pure, Except.pure, Except.ok.injEq] at hpure
    rw [← hpure]
  rw [hrs]
  exact foldlM_ok_inv (A := fun _ => True)
    (P := fun acc => ∀ e ∈ acc.sch.employees, e.current_hours ≤ e.max_hours)
    (fun a1 a a2 _ hok hP => stepTask_cap a1 a2 a hok hP)
    order (fun _ _ => trivial) _ _ hfold (reset_cap s hdur hmax)

/-- Witness for C4 on the concrete fresh schedule. -/
theorem c4_capacity_witness :
    (∀ t ∈ c1Fresh.tasks, 0 ≤ t.duration) ∧
    (∀ e ∈ c1Fresh.employees, 0 ≤ e.max_hours) ∧
    (∀ e ∈ c2res.schedule.employees, e.current_hours ≤ e.max_hours) := by
  refine ⟨by decide, by decide,
    c4_capacity c1Fresh c2res (by decide) (by decide) (by decide)⟩

/-! ## Claim C5: selection returns the first maximal candidate -/

theorem insertDescBy_head (f : α → ℚ) (x : α) (acc : List α) :
    (insertDescBy f x acc).head? = stepFM f acc.head? x := by
  cases acc with
  | nil => rfl
  | cons y ys =>
    unfold insertDescBy stepFM
    by_cases h : f y < f x
    · rw [if_pos h]
      simp [h]
    · rw [if_neg h]
      simp [h]

theorem sortDescBy_foldl_head (f : α → ℚ) : ∀ (l : List α) (acc : List α),
    (l.foldl (fun a x => insertDescBy f x a) acc).head? = l.foldl (stepFM f) acc.head? := by
  intro l
  induction l with
  | nil => intro acc; rfl
  | cons x xs ih =>
    intro acc
    rw [List.foldl_cons, List.foldl_cons, ih, insertDescBy_head]

theorem sortDescBy_head (f : α → ℚ) (l : List α) :
    (sortDescBy f l).head? = firstMaxFold f l := by
  unfold sortDescBy firstMaxFold
  exact sortDescBy_foldl_head f l []

theorem foldl_stepFM_spec (f : α → ℚ) : ∀ (xs : List α) (b : α),
    ∃ m k, xs.foldl (stepFM f) (some b) = some m ∧ (b :: xs).get? k = some m ∧
      f b ≤ f m ∧ (∀ y ∈ xs, f y ≤ f m) ∧
      (∀ j, j < k → ∀ y, (b :: xs).get? j = some y → f y < f m) := by
  intro xs
  induction xs with
  | nil =>
    intro b
    exact ⟨b, 0, rfl, rfl, le_refl _, by simp, by intro j hj; omega⟩
  | cons x xs ih =>
    intro b
    rw [List.foldl_cons]
    by_cases hlt : f b < f x
    · rw [show stepFM f (some b) x = some x by simp [stepFM, hlt]]
      obtain ⟨m, k, hfold, hget, hbx, hall, hfirst⟩ := ih x
      refine ⟨m, k + 1, hfold, by simpa using hget, le_of_lt (lt_of_lt_of_le hlt hbx), ?_, ?_⟩
      · intro y hy
        rcases List.mem_cons.mp hy with rfl | hy2
        · exact hbx
        · exact hall y hy2
      · intro j hj y hgy
        cases j with
        | zero =>
          simp only [List.get?_cons_zero, Option.some.injEq] at hgy
          rw [← hgy]
          exact lt_of_lt_of_le hlt hbx
        | succ j2 =>
          simp only [List.get?_cons_succ] at hgy
          exact hfirst j2 (by omega) y hgy
    · rw [show stepFM f (some b) x = some b by simp [stepFM, hlt]]
      obtain ⟨m, k, hfold, hget, hbm, hall, hfirst⟩ := ih b
      cases k with
      | zero =>
        simp only [List.get?_cons_zero, Option.some.injEq] at hget
        refine ⟨m, 0, hfold, by simpa using hget, hbm, ?_, by intro j hj; omega⟩
        intro y hy
        rcases List.mem_cons.mp hy with rfl | hy2
        · rw [← hget]
          exact le_of_not_lt hlt
        · exact hall y hy2
      | succ k2 =>
        simp only [List.get?_cons_succ] at hget
        have hbstrict : f b < f m := hfirst 0 (by omega) b rfl
        refine ⟨m, k2 + 2, hfold, by simpa using hget, hbm, ?_, ?_⟩
        · intro y hy
          rcases List.mem_cons.mp hy with rfl | hy2
          · exact le_of_lt (lt_of_le_of_lt (le_of_not_lt hlt) hbstrict)
          · exact hall y hy2
        · intro j hj y hgy
          cases j with
          | zero =>
            simp only [List.get?_cons_zero, Option.some.injEq] at hgy
            rw [← hgy]
            exact hbstrict
          | succ j2 =>
            simp only [List.get?_cons_succ] at hgy
            cases j2 with
            | zero =>
              simp only [List.get?_cons_zero, Option.some.injEq] at hgy
              rw [← hgy]
              exact lt_of_le_of_lt (le_of_not_lt hlt) hbstrict
            | succ j3 =>
              simp only [List.get?_cons_succ] at hgy
              exact hfirst (j3 + 1) (by omega) y hgy

theorem firstMaxFold_spec (f : α → ℚ) (l : List α) (m : α)
    (h : firstMaxFold f l = some m) :
    ∃ k, l.get? k = some m ∧ (∀ y ∈ l, f y ≤ f m) ∧
      (∀ j, j < k → ∀ y, l.get? j = some y → f y < f m) := by
  cases l with
  | nil => cases h
  | cons x xs =>
    unfold firstMaxFold at h
    rw [List.foldl_cons] at h
    rw [show stepFM f none x = some x from rfl] at h
    obtain ⟨m2, k, hfold, hget, hbx, hall, hfirst⟩ := foldl_stepFM_spec f xs x
    rw [hfold] at h
    cases h
    refine ⟨k, hget, ?_, hfirst⟩
    intro y hy
    rcases List.mem_cons.mp hy with rfl | hy2
    · exact hbx
    · exact hall y hy2

theorem mapM_pair_fst {g : Nat → Except PyErr ℚ} : ∀ (l : List Nat) (bs : List (Nat × ℚ)),
    (l.mapM (fun i => do
      let sc ← g i
      pure (i, sc))) = .ok bs → bs.map Prod.fst = l := by
  intro l
  induction l with
  | nil =>
    intro bs h
    simp only [List.mapM_nil] at h
    have : bs = [] := by
      simpa [pure, Except.pure] using h.symm
    rw [this]
    rfl
  | cons a l ih =>
    intro bs h
    rw [List.mapM_cons, exceptBind_ok] at h
    obtain ⟨p, hp, h2⟩ := h
    rw [exceptBind_ok] at h2
    obtain ⟨q, hq, h3⟩ := h2
    have hbs : bs = p :: q := by
      simpa [pure, Except.pure] using h3.symm
    rw [exceptBind_ok] at hp
    obtain ⟨sc, hsc, hp2⟩ := hp
    have hpa : p = (a, sc) := by
      simpa [pure, Except.pure] using hp2.symm
    rw [hbs, hpa, List.map_cons, ih q hq]

/-- Claim C5: whenever `_select_best_employee` returns (no fault), the scored
candidate list follows the eligible list in encounter order, and the chosen
employee is its *first maximal* element: it appears at some position `k`, its
score is greatest, and every earlier candidate scores strictly less (stable
descending sort, element 0 taken). -/
theorem c5_first_max (t : Task) (s : Schedule) (elig : List Nat)
    (scored : List (Nat × ℚ)) (i : Nat)
    (h : selectBestEmployee t s elig = .ok (scored, i)) :
    scored.map Prod.fst = elig ∧
    ∃ k sc, scored.get? k = some (i, sc) ∧ (∀ q ∈ scored, q.2 ≤ sc) ∧
      (∀ j, j < k → ∀ q, scored.get? j = some q → q.2 < sc) := by
  unfold selectBestEmployee at h
  rw [exceptBind_ok] at h
  obtain ⟨sc0, hmap, hrest⟩ := h
  rcases hh : (sortDescBy (fun p => p.2) sc0).head? with _ | p
  · rw [hh] at hrest
    exact absurd hrest (by simp)
  · rw [hh] at hrest
    simp only [pure, Except.pure, Except.ok.injEq, Prod.mk.injEq] at hrest
    obtain ⟨rfl, rfl⟩ := hrest
    constructor
    · exact mapM_pair_fst elig sc0 hmap
    · rw [sortDescBy_head] at hh
      obtain ⟨k, hget, hmax, hfirst⟩ := firstMaxFold_spec _ sc0 p hh
      exact ⟨k, p.2, hget, hmax, hfirst⟩

/-- Witness for C5: two equally scored eligible employees; the first wins. -/
theorem c5_first_max_witness :
    selectBestEmployee c5task c5sch [0, 1] = .ok ([(0, 100), (1, 100)], 0) ∧
    (∃ k sc, ([(0, 100), (1, 100)] : List (Nat × ℚ)).get? k = some (0, sc) ∧
      (∀ q ∈ ([(0, 100), (1, 100)] : List (Nat × ℚ)), q.2 ≤ sc) ∧
      (∀ j, j < k → ∀ q, ([(0, 100), (1, 100)] : List (Nat × ℚ)).get? j = some q → q.2 < sc)) := by
  refine ⟨by decide, (c5_first_max c5task c5sch [0, 1] [(0, 100), (1, 100)] 0 (by decide)).2⟩

/-! ## Claim C9: no division-by-zero fault -/

theorem taskKeyLt_err (a b : Task) (e : PyErr)
    (h : taskKeyLt a b = .error e) : e = .typeError := by
  unfold taskKeyLt at h
  by_cases hp : a.priority = b.priority
  · rw [if_pos hp] at h
    rcases hda : a.deadline with _ | x <;> rcases hdb : b.deadline with _ | y <;>
      rw [hda, hdb] at h <;> simp_all
  · rw [if_neg hp] at h
    exact absurd h (by simp)

theorem insertIdx_err (ts : List Task) (x : Nat) : ∀ (l : List Nat) (e : PyErr),
    insertIdx ts x l = .error e → e = .typeError := by
  intro l
  induction l with
  | nil =>
    intro e h
    exact absurd h (by simp [insertIdx])
  | cons y ys ih =>
    intro e h
    rw [show insertIdx ts x (y :: ys) =
        (taskKeyLt ((ts.get? x).getD dummyTask) ((ts.get? y).getD dummyTask) >>= fun b =>
          if b then .ok (x :: y :: ys)
          else (insertIdx ts x ys >>= fun zs => .ok (y :: zs))) from rfl] at h
    rw [exceptBind_err] at h
    rcases h with h | ⟨bv, _, h2⟩
    · exact taskKeyLt_err _ _ e h
    · by_cases hb : bv
      · rw [if_pos hb] at h2
        exact absurd h2 (by simp)
      · rw [if_neg hb] at h2
        rw [exceptBind_err] at h2
        rcases h2 with h3 | ⟨zs, _, h4⟩
        · exact ih e h3
        · exact absurd h4 (by simp)

theorem insertIdx_mem (ts : List Task) (x : Nat) : ∀ (l zs : List Nat),
    insertIdx ts x l = .ok zs → ∀ j ∈ zs, j = x ∨ j ∈ l := by
  intro l
  induction l with
  | nil =>
    intro zs h j hj
    simp only [insertIdx, Except.ok.injEq] at h
    rw [← h] at hj
    rcases List.mem_singleton.mp hj with rfl
    exact Or.inl rfl
  | cons y ys ih =>
    intro zs h j hj
    rw [show insertIdx ts x (y :: ys) =
        (taskKeyLt ((ts.get? x).getD dummyTask) ((ts.get? y).getD dummyTask) >>= fun b =>
          if b then .ok (x :: y :: ys)
          else (insertIdx ts x ys >>= fun zs2 => .ok (y :: zs2))) from rfl] at h
    rw [exceptBind_ok] at h
    obtain ⟨bv, _, h2⟩ := h
    by_cases hb : bv
    · rw [if_pos hb] at h2
      cases h2
      rcases List.mem_cons.mp hj with rfl | hj2
      · exact Or.inl rfl
      · exact Or.inr hj2
    · rw [if_neg hb] at h2
      rw [exceptBind_ok] at h2
      obtain ⟨zs2, hz2, h3⟩ := h2
      cases h3
      rcases List.mem_cons.mp hj with rfl | hj2
      · exact Or.inr (List.mem_cons_self _ _)
      · rcases ih zs2 hz2 j hj2 with h4 | h4
        · exact Or.inl h4
        · exact Or.inr (List.mem_cons_of_mem _ h4)

theorem sortTasksIdx_err (ts : List Task) (e : PyErr)
    (h : sortTasksIdx ts = .error e) : e = .typeError := by
  unfold sortTasksIdx at h
  exact foldlM_err (fun s a e2 h2 => insertIdx_err ts a s e2 h2) _ _ _ h

theorem sortTasksIdx_mem_lt (ts : List Task) (order : List Nat)
    (h : sortTasksIdx ts = .ok order) : ∀ i ∈ order, i < ts.length := by
  unfold sortTasksIdx at h
  have := foldlM_ok_inv (A := fun i => i < ts.length)
    (P := fun acc : List Nat => ∀ i ∈ acc, i < ts.length)
    (f := fun acc i => insertIdx ts i acc) ?_ (List.range ts.length) ?_ [] order h ?_
  · exact this
  · intro acc a acc' hA hok hP j hj
    rcases insertIdx_mem ts a acc acc' hok j hj with rfl | hj2
    · exact hA
    · exact hP j hj2
  · intro a ha
    exact List.mem_range.mp ha
  · intro j hj
    cases hj

theorem scoreFor_ok (t : Task) (e : Employee) (h : ¬ e.max_hours = 0) :
    ∃ q, scoreFor t e = .ok q := by
  unfold scoreFor
  rw [if_neg h]
  exact ⟨_, rfl⟩

theorem eligibleIdx_mem (s : Schedule) (t : Task) (i : Nat)
    (h : i ∈ eligibleIdx s t) :
    ∃ e, s.employees.get? i = some e ∧ t.can_be_assigned_to e = true := by
  unfold eligibleIdx at h
  rw [List.mem_filter] at h
  obtain ⟨_, hp⟩ := h
  rcases hg : s.employees.get? i with _ | e
  · rw [hg] at hp
    simp at hp
  · rw [hg] at hp
    exact ⟨e, rfl, hp⟩

theorem mapM_pair_ok {g : Nat → Except PyErr ℚ} : ∀ (l : List Nat),
    (∀ i ∈ l, ∃ q, g i = .ok q) →
    ∃ bs, (l.mapM (fun i => do
      let sc ← g i
      pure (i, sc))) = .ok bs ∧ bs.length = l.length := by
  intro l
  induction l with
  | nil =>
    refine fun _ => ⟨[], ?_, rfl⟩
    simp only [List.mapM_nil]
    rfl
  | cons a l ih =>
    intro h
    obtain ⟨q, hq⟩ := h a (List.mem_cons_self _ _)
    obtain ⟨bs, hbs, hlen⟩ := ih (fun i hi => h i (List.mem_cons_of_mem _ hi))
    have helem : (do
        let sc ← g a
        pure (a, sc) : Except PyErr (Nat × ℚ)) = .ok (a, q) := by
      rw [exceptBind_of_ok hq]
      rfl
    refine ⟨(a, q) :: bs, ?_, by simp [hlen]⟩
    rw [List.mapM_cons, exceptBind_of_ok helem, exceptBind_of_ok hbs]
    rfl

theorem insertDescBy_length (f : α → ℚ) (x : α) : ∀ (l : List α),
    (insertDescBy f x l).length = l.length + 1 := by
  intro l
  induction l with
  | nil => rfl
  | cons y ys ih =>
    unfold insertDescBy
    by_cases h : f y < f x
    · rw [if_pos h]
      rfl
    · rw [if_neg h]
      simp [ih]

theorem sortDescBy_foldl_length (f : α → ℚ) : ∀ (l acc : List α),
    ((l.foldl (fun a x => insertDescBy f x a) acc)).length = acc.length + l.length := by
  intro l
  induction l with
  | nil => intro acc; rfl
  | cons x xs ih =>
    intro acc
    rw [List.foldl_cons, ih, insertDescBy_length]
    simp only [List.length_cons]
    omega

theorem sortDescBy_length (f : α → ℚ) (l : List α) :
    (sortDescBy f l).length = l.length := by
  unfold sortDescBy
  rw [sortDescBy_foldl_length]
  simp

theorem insertDescBy_mem (f : α → ℚ) (x y : α) : ∀ (l : List α),
    x ∈ insertDescBy f y l → x = y ∨ x ∈ l := by
  intro l
  induction l with
  | nil =>
    intro h
    simpa [insertDescBy] using h
  | cons z zs ih =>
    intro h
    unfold insertDescBy at h
    by_cases hc : f z < f y
    · rw [if_pos hc] at h
      rcases List.mem_cons.mp h with rfl | h2
      · exact Or.inl rfl
      · exact Or.inr h2
    · rw [if_neg hc] at h
      rcases List.mem_cons.mp h with rfl | h2
      · exact Or.inr (List.mem_cons_self _ _)
      · rcases ih h2 with h3 | h3
        · exact Or.inl h3
        · exact Or.inr (List.mem_cons_of_mem _ h3)

theorem sortDescBy_foldl_mem (f : α → ℚ) (x : α) : ∀ (l acc : List α),
    x ∈ l.foldl (fun a y => insertDescBy f y a) acc → x ∈ acc ∨ x ∈ l := by
  intro l
  induction l with
  | nil =>
    intro acc h
    exact Or.inl h
  | cons y ys ih =>
    intro acc h
    rw [List.foldl_cons] at h
    rcases ih (insertDescBy f y acc) h with h2 | h2
    · rcases insertDescBy_mem f x y acc h2 with rfl | h3
      · exact Or.inr (List.mem_cons_self _ _)
      · exact Or.inl h3
    · exact Or.inr (List.mem_cons_of_mem _ h2)

theorem sortDescBy_mem (f : α → ℚ) (x : α) (l : List α)
    (h : x ∈ sortDescBy f l) : x ∈ l := by
  unfold sortDescBy at h
  rcases sortDescBy_foldl_mem f x l [] h with h2 | h2
  · cases h2
  · exact h2

theorem selectBest_ok (t : Task) (s : Schedule) (elig : List Nat)
    (hne : elig ≠ [])
    (hmax : ∀ i ∈ elig, ∃ e, s.employees.get? i = some e ∧ ¬ e.max_hours = 0) :
    ∃ scored ci, selectBestEmployee t s elig = .ok (scored, ci) := by
  have hsc : ∀ i ∈ elig, ∃ q,
      scoreFor t ((s.employees.get? i).getD dummyEmployee) = .ok q := by
    intro i hi
    obtain ⟨e, hg, hm⟩ := hmax i hi
    rw [hg]
    exact scoreFor_ok t e hm
  obtain ⟨bs, hbs, hlen⟩ := mapM_pair_ok elig hsc
  have hbsne : (sortDescBy (fun p : Nat × ℚ => p.2) bs) ≠ [] := by
    intro hnil
    have h1 := sortDescBy_length (fun p : Nat × ℚ => p.2) bs
    rw [hnil] at h1
    have hbs0 : bs.length = 0 := by simpa using h1.symm
    rw [hlen] at hbs0
    exact hne (List.length_eq_zero.mp hbs0)
  rcases hh : (sortDescBy (fun p : Nat × ℚ => p.2) bs).head? with _ | p
  · rw [List.head?_eq_none_iff] at hh
    exact absurd hh hbsne
  · refine ⟨bs, p.1, ?_⟩
    unfold selectBestEmployee
    rw [exceptBind_of_ok hbs, hh]
    rfl

theorem assignTo_Q (s : Schedule) (ti ei : Nat)
    (hd : ∀ t ∈ s.tasks, 0 < t.duration)
    (hc : ∀ e ∈ s.employees, 0 ≤ e.current_hours) :
    (assignTo s ti ei).2.tasks.length = s.tasks.length ∧
    (∀ t ∈ (assignTo s ti ei).2.tasks, 0 < t.duration) ∧
    (∀ e ∈ (assignTo s ti ei).2.employees, 0 ≤ e.current_hours) := by
  unfold assignTo
  dsimp only
  by_cases hcan : ((s.tasks.get? ti).getD dummyTask).can_be_assigned_to
      ((s.employees.get? ei).getD dummyEmployee)
  · rw [if_pos hcan]
    refine ⟨listModify_length _ ti s.tasks, ?_, ?_⟩
    · intro x hx
      rcases listModify_mem _ ti s.tasks x hx with hmem | ⟨y, hy, rfl⟩
      · exact hd x hmem
      · exact hd y (List.get?_mem hy)
    · intro x hx
      rcases listModify_mem _ ei s.employees x hx with hmem | ⟨y, hy, rfl⟩
      · exact hc x hmem
      · have hy0 : 0 ≤ y.current_hours := hc y (List.get?_mem hy)
        have hdur0 : 0 ≤ ((s.tasks.get? ti).getD dummyTask).duration := by
          rcases hgt : s.tasks.get? ti with _ | t2
          · norm_num [dummyTask]
          · simpa using le_of_lt (hd t2 (List.get?_mem hgt))
        unfold Employee.assign_hours
        dsimp only
        linarith
  · rw [if_neg hcan]
    exact ⟨rfl, hd, hc⟩

theorem stepTask_total (N : Nat) (acc : PassAcc) (ti : Nat)
    (hti : ti < N)
    (hQ : acc.sch.tasks.length = N ∧ (∀ t ∈ acc.sch.tasks, 0 < t.duration) ∧
      (∀ e ∈ acc.sch.employees, 0 ≤ e.current_hours)) :
    ∃ acc', stepTask acc ti = .ok acc' ∧
      (acc'.sch.tasks.length = N ∧ (∀ t ∈ acc'.sch.tasks, 0 < t.duration) ∧
        (∀ e ∈ acc'.sch.employees, 0 ≤ e.current_hours)) := by
  obtain ⟨hlen, hdur, hcur⟩ := hQ
  have hti2 : ti < acc.sch.tasks.length := by omega
  obtain ⟨t0, hgt⟩ : ∃ t0, acc.sch.tasks.get? ti = some t0 := by
    rcases hg : acc.sch.tasks.get? ti with _ | t0
    · rw [List.get?_eq_none] at hg
      omega
    · exact ⟨t0, rfl⟩
  have hgetD : (acc.sch.tasks.get? ti).getD dummyTask = t0 := by
    rw [hgt]
    rfl
  unfold stepTask
  rw [hgetD]
  by_cases he : (eligibleIdx acc.sch t0).isEmpty
  · rw [if_pos he]
    exact ⟨_, rfl, hlen, hdur, hcur⟩
  · rw [if_neg he]
    have hne : eligibleIdx acc.sch t0 ≠ [] := by
      intro hnil
      rw [hnil] at he
      exact he rfl
    have hm : ∀ i ∈ eligibleIdx acc.sch t0,
        ∃ e, acc.sch.employees.get? i = some e ∧ ¬ e.max_hours = 0 := by
      intro i hi
      obtain ⟨e, hg, helig⟩ := eligibleIdx_mem acc.sch t0 i hi
      refine ⟨e, hg, ?_⟩
      unfold Task.can_be_assigned_to Employee.can_work_hours at helig
      simp only [Bool.and_eq_true, decide_eq_true_eq] at helig
      have h1 : e.current_hours + t0.duration ≤ e.max_hours := helig.1.2
      have h2 : 0 < t0.duration := hdur t0 (List.get?_mem hgt)
      have h3 : 0 ≤ e.current_hours := hcur e (List.get?_mem hg)
      intro h0
      rw [h0] at h1
      linarith
    obtain ⟨scored, ci, hok⟩ := selectBest_ok t0 acc.sch (eligibleIdx acc.sch t0) hne hm
    rw [exceptBind_of_ok hok]
    dsimp only
    have hQ2 := assignTo_Q acc.sch ti ci hdur hcur
    by_cases hr : (assignTo acc.sch ti ci).1
    · rw [if_pos hr]
      exact ⟨_, rfl, by rw [hQ2.1]; exact hlen, hQ2.2.1, hQ2.2.2⟩
    · rw [if_neg hr]
      exact ⟨_, rfl, by rw [hQ2.1]; exact hlen, hQ2.2.1, hQ2.2.2⟩

/-- Claim C9: on a fresh, validated input (positive durations, no
pre-existing links), `schedule_all` never raises `ZeroDivisionError` even
when some employee has `max_hours == 0` — such an employee can never pass the
capacity check, so the scoring divisions never see a zero denominator — and
the workload report shows utilization 0 and availability 0 for every
zero-capacity employee. -/
theorem c9_no_div_zero (s : Schedule)
    (hdur : ∀ t ∈ s.tasks, 0 < t.duration)
    (hun : ∀ t ∈ s.tasks, t.assigned_employee = none) :
    schedule_all s ≠ .error .zeroDivisionError ∧
    (∀ r, schedule_all s = .ok r →
      ∀ w ∈ get_employee_workload_report r.schedule,
        w.max_hours = 0 → w.utilization = 0 ∧ w.available_hours = 0) := by
  have hs_reset : s.reset = cleanse s := reset_of_unassigned s hun
  have hdur0 : ∀ t ∈ s.reset.tasks, 0 < t.duration := by
    rw [reset_tasks]
    intro t ht
    rcases List.mem_map.mp ht with ⟨u, hu, rfl⟩
    exact hdur u hu
  have hcur0 : ∀ e ∈ s.reset.employees, 0 ≤ e.current_hours := by
    rw [hs_reset]
    intro e he
    rcases List.mem_map.mp he with ⟨y, _, rfl⟩
    unfold Employee.reset_hours
    norm_num
  constructor
  · intro hbad
    unfold schedule_all runPassCore at hbad
    rw [exceptBind_err] at hbad
    rcases hbad with hs | ⟨order, horder, hbad2⟩
    · exact absurd (sortTasksIdx_err _ _ hs) (by decide)
    · rw [exceptBind_err] at hbad2
      rcases hbad2 with hf | ⟨acc, _, hpure⟩
      · obtain ⟨accF, hfold, _⟩ := foldlM_ok_total
          (A := fun i => i < s.reset.tasks.length)
          (P := fun acc : PassAcc => acc.sch.tasks.length = s.reset.tasks.length ∧
            (∀ t ∈ acc.sch.tasks, 0 < t.duration) ∧
            (∀ e ∈ acc.sch.employees, 0 ≤ e.current_hours))
          (fun a1 a hA hP => stepTask_total s.reset.tasks.length a1 a hA hP)
          order (sortTasksIdx_mem_lt _ _ horder)
          ({ sch := s.reset, reasons := [], trace := [] } : PassAcc)
          ⟨rfl, hdur0, hcur0⟩
        rw [hfold] at hf
        cases hf
      · exact absurd hpure (by simp [pure, Except.pure])
  · intro r hok w hw hwmax
    unfold schedule_all runPassCore at hok
    rw [exceptBind_ok] at hok
    obtain ⟨order, horder, h2⟩ := hok
    rw [exceptBind_ok] at h2
    obtain ⟨accF, hfold, hpure⟩ := h2
    have hrs : r.schedule = accF.sch := by
      simp only [pure, Except.pure, Except.ok.injEq] at hpure
      rw [← hpure]
    have hQF := foldlM_ok_inv
      (A := fun i => i < s.reset.tasks.length)
      (P := fun acc : PassAcc => acc.sch.tasks.length = s.reset.tasks.length ∧
        (∀ t ∈ acc.sch.tasks, 0 < t.duration) ∧
        (∀ e ∈ acc.sch.employees, 0 ≤ e.current_hours))
      (fun a1 a a2 hA hok2 hP => by
        obtain ⟨a3, ha3, hQ3⟩ := stepTask_total s.reset.tasks.length a1 a hA hP
        rw [hok2] at ha3
        cases ha3
        exact hQ3)
      order (sortTasksIdx_mem_lt _ _ horder) _ _ hfold ⟨rfl, hdur0, hcur0⟩
    have hcurF : ∀ e ∈ r.schedule.employees, 0 ≤ e.current_hours := by
      rw [hrs]
      exact hQF.2.2
    unfold get_employee_workload_report at hw
    have hw2 := sortDescBy_mem _ _ _ hw
    rcases List.mem_map.mp hw2 with ⟨e, he, rfl⟩
    have hm0 : e.max_hours = 0 := hwmax
    constructor
    · show (if 0 < e.max_hours then pyRound2 ((e.current_hours / e.max_hours) * 100) else 0) = 0
      rw [if_neg]
      rw [hm0]
      exact lt_irrefl 0
    · show Employee.available_hours e = 0
      unfold Employee.available_hours
      rw [hm0]
      have := hcurF e he
      rw [max_eq_left (by linarith)]

/-- Witness for C9 on the concrete roster with a zero-capacity employee. -/
theorem c9_no_div_zero_witness :
    (∀ t ∈ c9sch.tasks, 0 < t.duration) ∧
    (∀ t ∈ c9sch.tasks, t.assigned_employee = none) ∧
    schedule_all c9sch ≠ .error .zeroDivisionError ∧
    schedule_all c9sch = .ok c9res ∧
    (∀ w ∈ get_employee_workload_report c9res.schedule,
      w.max_hours = 0 → w.utilization = 0 ∧ w.available_hours = 0) := by
  refine ⟨by decide, by decide,
    (c9_no_div_zero c9sch (by decide) (by decide)).1,
    by decide,
    (c9_no_div_zero c9sch (by decide) (by decide)).2 c9res (by decide)⟩

end Sched
